import Mathlib

/-!
Shallow embedding of `compute_thresholds` from
`src/RiskLabAI/data/structures/utilities.py`, and proofs of the spec's
claims about it.

Real numbers of the source (numpy float64) are modelled by `ℚ`; the
per-step output arrays (preallocated with `np.zeros` and written once at
index `i` during iteration `i`) are modelled by lists grown by one element
per step; the growable python lists `time_deltas` / `times` are modelled by
lists as well.
-/

namespace RiskLabAI

/-- Modelled from the spec: `exponential_weighted_moving_average` lives in
`RiskLabAI.utils`, which is not part of this repository snapshot (only its
caller `compute_thresholds` is).  The spec describes it as
`smooth(sequence, span) -> ordered sequence of real, same length`,
"a recursively weighted exponential average with decay factor derived from
span (larger span ⇒ slower decay)".  We model it with the standard
span-derived decay `α = 2 / (span + 1)`:
`out[0] = x[0]`, `out[i] = α·x[i] + (1−α)·out[i−1]`. -/
def ewmaFrom (α : ℚ) : ℚ → List ℚ → List ℚ
  | _, [] => []
  | prev, x :: xs =>
    let y := α * x + (1 - α) * prev
    y :: ewmaFrom α y xs

/-- Modelled from the spec: see `ewmaFrom`. -/
def exponential_weighted_moving_average (xs : List ℚ) (window_length : ℤ) : List ℚ :=
  match xs with
  | [] => []
  | x :: rest => x :: ewmaFrom (2 / ((window_length : ℚ) + 1)) x rest

/-- The running state of the scan in `compute_thresholds`, together with
the output arrays being filled (`absoluteThetas`, `thresholds`, `thetas`,
`groupingIds` hold the entries for indices `0..k` after step `k`). -/
structure SegState where
  currentTheta : ℚ
  groupingId : ℕ
  previousTime : ℕ
  expectedTicks : ℚ
  expectedBarValue : ℚ
  timeDeltas : List ℚ
  times : List ℕ
  absoluteThetas : List ℚ
  thresholds : List ℚ
  thetas : List ℚ
  groupingIds : List ℕ
  deriving Repr, DecidableEq

/-- State after the seeding phase of `compute_thresholds` (lines 32-49 of
`utilities.py`): `current_theta = target_column[0]`, the index-0 entries of
the per-step arrays written (with `thresholds[0]` left at its `np.zeros`
default `0`), empty `time_deltas` / `times`, `previous_time = 0`, and the
seed estimates. -/
def initState (features : List ℚ) (initial_expected_ticks : ℤ)
    (initial_bar_size : ℚ) : SegState :=
  let x0 := features.getD 0 0
  { currentTheta := x0
    groupingId := 0
    previousTime := 0
    expectedTicks := (initial_expected_ticks : ℚ)
    expectedBarValue := initial_bar_size
    timeDeltas := []
    times := []
    absoluteThetas := [|x0|]
    thresholds := [0]
    thetas := [x0]
    groupingIds := [0] }

/-- One iteration `i` of the `for i in range(1, num_values)` loop of
`compute_thresholds`. -/
def segStep (features : List ℚ) (initial_expected_ticks : ℤ)
    (s : SegState) (i : ℕ) : SegState :=
  let θ := s.currentTheta + features.getD i 0
  let threshold := s.expectedTicks * s.expectedBarValue
  if threshold ≤ |θ| then
    let ds := s.timeDeltas ++ [(i : ℚ) - (s.previousTime : ℚ)]
    { currentTheta := 0
      groupingId := s.groupingId + 1
      previousTime := i
      expectedTicks :=
        (exponential_weighted_moving_average ds (ds.length : ℤ)).getLastD 0
      expectedBarValue :=
        |(exponential_weighted_moving_average (features.take i)
            initial_expected_ticks).getLastD 0|
      timeDeltas := ds
      times := s.times ++ [i]
      absoluteThetas := s.absoluteThetas ++ [|θ|]
      thresholds := s.thresholds ++ [threshold]
      thetas := s.thetas ++ [θ]
      groupingIds := s.groupingIds ++ [s.groupingId] }
  else
    { s with
      currentTheta := θ
      absoluteThetas := s.absoluteThetas ++ [|θ|]
      thresholds := s.thresholds ++ [threshold]
      thetas := s.thetas ++ [θ]
      groupingIds := s.groupingIds ++ [s.groupingId] }

/-- State after the loop has processed indices `1, …, k`
(`runUpTo … 0` is the seeded state, before the loop body has run). -/
def runUpTo (features : List ℚ) (initial_expected_ticks : ℤ)
    (initial_bar_size : ℚ) : ℕ → SegState
  | 0 => initState features initial_expected_ticks initial_bar_size
  | k + 1 =>
    segStep features initial_expected_ticks
      (runUpTo features initial_expected_ticks initial_bar_size k) (k + 1)

/-- The final state of the scan: the loop runs `i = 1, …, num_values - 1`. -/
def runSeg (features : List ℚ) (initial_expected_ticks : ℤ)
    (initial_bar_size : ℚ) : SegState :=
  runUpTo features initial_expected_ticks initial_bar_size (features.length - 1)

/-- `compute_thresholds`.  On an empty input the python code raises
(`target_column[0]` is an out-of-bounds read) before any output exists;
that failure is modelled by `none`.  Otherwise it returns the six outputs
`(time_deltas, absolute_thetas, thresholds, times, thetas, grouping_ids)`.
No other input is rejected: the function performs no validation of
`initial_expected_ticks` or `initial_bar_size`. -/
def compute_thresholds (features : List ℚ) (initial_expected_ticks : ℤ)
    (initial_bar_size : ℚ) :
    Option (List ℚ × List ℚ × List ℚ × List ℕ × List ℚ × List ℕ) :=
  match features with
  | [] => none
  | _ :: _ =>
    let s := runSeg features initial_expected_ticks initial_bar_size
    some (s.timeDeltas, s.absoluteThetas, s.thresholds, s.times, s.thetas,
      s.groupingIds)

/-- `TimeDeltas` output of a run. -/
def timeDeltasOf (f : List ℚ) (t : ℤ) (b : ℚ) : List ℚ := (runSeg f t b).timeDeltas

/-- `AbsStatistic` output of a run. -/
def absStatOf (f : List ℚ) (t : ℤ) (b : ℚ) : List ℚ := (runSeg f t b).absoluteThetas

/-- `Threshold` output of a run. -/
def threshOf (f : List ℚ) (t : ℤ) (b : ℚ) : List ℚ := (runSeg f t b).thresholds

/-- `BoundaryIndices` output of a run. -/
def timesOf (f : List ℚ) (t : ℤ) (b : ℚ) : List ℕ := (runSeg f t b).times

/-- `Statistic` output of a run. -/
def thetasOf (f : List ℚ) (t : ℤ) (b : ℚ) : List ℚ := (runSeg f t b).thetas

/-- `GroupId` output of a run. -/
def groupIdsOf (f : List ℚ) (t : ℤ) (b : ℚ) : List ℕ := (runSeg f t b).groupingIds

/-- The boundary condition tested at iteration `i`
(`if absolute_theta >= threshold`), expressed on the state entering the
iteration. -/
def hits (features : List ℚ) (s : SegState) (i : ℕ) : Prop :=
  s.expectedTicks * s.expectedBarValue ≤ |s.currentTheta + features.getD i 0|

instance (features : List ℚ) (s : SegState) (i : ℕ) :
    Decidable (hits features s i) := by
  unfold hits
  infer_instance

theorem runUpTo_succ (f : List ℚ) (t : ℤ) (b : ℚ) (k : ℕ) :
    runUpTo f t b (k + 1) = segStep f t (runUpTo f t b k) (k + 1) := rfl

theorem segStep_thetas (f : List ℚ) (t : ℤ) (s : SegState) (i : ℕ) :
    (segStep f t s i).thetas = s.thetas ++ [s.currentTheta + f.getD i 0] := by
  simp only [segStep]
  split <;> rfl

theorem segStep_absoluteThetas (f : List ℚ) (t : ℤ) (s : SegState) (i : ℕ) :
    (segStep f t s i).absoluteThetas
      = s.absoluteThetas ++ [|s.currentTheta + f.getD i 0|] := by
  simp only [segStep]
  split <;> rfl

theorem segStep_thresholds (f : List ℚ) (t : ℤ) (s : SegState) (i : ℕ) :
    (segStep f t s i).thresholds
      = s.thresholds ++ [s.expectedTicks * s.expectedBarValue] := by
  simp only [segStep]
  split <;> rfl

theorem segStep_groupingIds (f : List ℚ) (t : ℤ) (s : SegState) (i : ℕ) :
    (segStep f t s i).groupingIds = s.groupingIds ++ [s.groupingId] := by
  simp only [segStep]
  split <;> rfl

theorem segStep_times_pos (f : List ℚ) (t : ℤ) (s : SegState) (i : ℕ)
    (h : hits f s i) : (segStep f t s i).times = s.times ++ [i] := by
  simp only [segStep]
  have h' : s.expectedTicks * s.expectedBarValue ≤ |s.currentTheta + f.getD i 0| := h
  rw [if_pos h']

theorem segStep_times_neg (f : List ℚ) (t : ℤ) (s : SegState) (i : ℕ)
    (h : ¬ hits f s i) : (segStep f t s i).times = s.times := by
  simp only [segStep]
  have h' : ¬ s.expectedTicks * s.expectedBarValue ≤ |s.currentTheta + f.getD i 0| := h
  rw [if_neg h']

theorem segStep_timeDeltas_pos (f : List ℚ) (t : ℤ) (s : SegState) (i : ℕ)
    (h : hits f s i) :
    (segStep f t s i).timeDeltas
      = s.timeDeltas ++ [(i : ℚ) - (s.previousTime : ℚ)] := by
  simp only [segStep]
  have h' : s.expectedTicks * s.expectedBarValue ≤ |s.currentTheta + f.getD i 0| := h
  rw [if_pos h']

theorem segStep_timeDeltas_neg (f : List ℚ) (t : ℤ) (s : SegState) (i : ℕ)
    (h : ¬ hits f s i) : (segStep f t s i).timeDeltas = s.timeDeltas := by
  simp only [segStep]
  have h' : ¬ s.expectedTicks * s.expectedBarValue ≤ |s.currentTheta + f.getD i 0| := h
  rw [if_neg h']

theorem segStep_groupingId_pos (f : List ℚ) (t : ℤ) (s : SegState) (i : ℕ)
    (h : hits f s i) : (segStep f t s i).groupingId = s.groupingId + 1 := by
  simp only [segStep]
  have h' : s.expectedTicks * s.expectedBarValue ≤ |s.currentTheta + f.getD i 0| := h
  rw [if_pos h']

theorem segStep_groupingId_neg (f : List ℚ) (t : ℤ) (s : SegState) (i : ℕ)
    (h : ¬ hits f s i) : (segStep f t s i).groupingId = s.groupingId := by
  simp only [segStep]
  have h' : ¬ s.expectedTicks * s.expectedBarValue ≤ |s.currentTheta + f.getD i 0| := h
  rw [if_neg h']

theorem segStep_currentTheta_pos (f : List ℚ) (t : ℤ) (s : SegState) (i : ℕ)
    (h : hits f s i) : (segStep f t s i).currentTheta = 0 := by
  simp only [segStep]
  have h' : s.expectedTicks * s.expectedBarValue ≤ |s.currentTheta + f.getD i 0| := h
  rw [if_pos h']

theorem segStep_currentTheta_neg (f : List ℚ) (t : ℤ) (s : SegState) (i : ℕ)
    (h : ¬ hits f s i) :
    (segStep f t s i).currentTheta = s.currentTheta + f.getD i 0 := by
  simp only [segStep]
  have h' : ¬ s.expectedTicks * s.expectedBarValue ≤ |s.currentTheta + f.getD i 0| := h
  rw [if_neg h']

theorem segStep_previousTime_pos (f : List ℚ) (t : ℤ) (s : SegState) (i : ℕ)
    (h : hits f s i) : (segStep f t s i).previousTime = i := by
  simp only [segStep]
  have h' : s.expectedTicks * s.expectedBarValue ≤ |s.currentTheta + f.getD i 0| := h
  rw [if_pos h']

theorem segStep_previousTime_neg (f : List ℚ) (t : ℤ) (s : SegState) (i : ℕ)
    (h : ¬ hits f s i) : (segStep f t s i).previousTime = s.previousTime := by
  simp only [segStep]
  have h' : ¬ s.expectedTicks * s.expectedBarValue ≤ |s.currentTheta + f.getD i 0| := h
  rw [if_neg h']

theorem segStep_expectedTicks_pos (f : List ℚ) (t : ℤ) (s : SegState) (i : ℕ)
    (h : hits f s i) :
    (segStep f t s i).expectedTicks
      = (exponential_weighted_moving_average
          (s.timeDeltas ++ [(i : ℚ) - (s.previousTime : ℚ)])
          ((s.timeDeltas ++ [(i : ℚ) - (s.previousTime : ℚ)]).length : ℤ)).getLastD 0 := by
  simp only [segStep]
  have h' : s.expectedTicks * s.expectedBarValue ≤ |s.currentTheta + f.getD i 0| := h
  rw [if_pos h']

theorem segStep_expectedTicks_neg (f : List ℚ) (t : ℤ) (s : SegState) (i : ℕ)
    (h : ¬ hits f s i) : (segStep f t s i).expectedTicks = s.expectedTicks := by
  simp only [segStep]
  have h' : ¬ s.expectedTicks * s.expectedBarValue ≤ |s.currentTheta + f.getD i 0| := h
  rw [if_neg h']

theorem segStep_expectedBarValue_pos (f : List ℚ) (t : ℤ) (s : SegState) (i : ℕ)
    (h : hits f s i) :
    (segStep f t s i).expectedBarValue
      = |(exponential_weighted_moving_average (f.take i) t).getLastD 0| := by
  simp only [segStep]
  have h' : s.expectedTicks * s.expectedBarValue ≤ |s.currentTheta + f.getD i 0| := h
  rw [if_pos h']

theorem segStep_expectedBarValue_neg (f : List ℚ) (t : ℤ) (s : SegState) (i : ℕ)
    (h : ¬ hits f s i) :
    (segStep f t s i).expectedBarValue = s.expectedBarValue := by
  simp only [segStep]
  have h' : ¬ s.expectedTicks * s.expectedBarValue ≤ |s.currentTheta + f.getD i 0| := h
  rw [if_neg h']

theorem getD_concat_length {α : Type} (l : List α) (a d : α) :
    (l ++ [a]).getD l.length d = a := by
  induction l with
  | nil => rfl
  | cons x xs ih => simp [ih]

theorem getD_concat_lt {α : Type} (l : List α) (a d : α) (i : ℕ)
    (h : i < l.length) : (l ++ [a]).getD i d = l.getD i d :=
  List.getD_append l [a] d i h

theorem getLastD_eq_getD {α : Type} (l : List α) (d : α) (h : l ≠ []) :
    l.getLastD d = l.getD (l.length - 1) d := by
  induction l with
  | nil => simp at h
  | cons x xs ih =>
    cases xs with
    | nil => rfl
    | cons y ys =>
      have := ih (by simp)
      simpa [List.getLastD_cons] using this

theorem thetas_length (f : List ℚ) (t : ℤ) (b : ℚ) (k : ℕ) :
    (runUpTo f t b k).thetas.length = k + 1 := by
  induction k with
  | zero => rfl
  | succ k ih => simp [runUpTo_succ, segStep_thetas, ih]

theorem absoluteThetas_length (f : List ℚ) (t : ℤ) (b : ℚ) (k : ℕ) :
    (runUpTo f t b k).absoluteThetas.length = k + 1 := by
  induction k with
  | zero => rfl
  | succ k ih => simp [runUpTo_succ, segStep_absoluteThetas, ih]

theorem thresholds_length (f : List ℚ) (t : ℤ) (b : ℚ) (k : ℕ) :
    (runUpTo f t b k).thresholds.length = k + 1 := by
  induction k with
  | zero => rfl
  | succ k ih => simp [runUpTo_succ, segStep_thresholds, ih]

theorem groupingIds_length (f : List ℚ) (t : ℤ) (b : ℚ) (k : ℕ) :
    (runUpTo f t b k).groupingIds.length = k + 1 := by
  induction k with
  | zero => rfl
  | succ k ih => simp [runUpTo_succ, segStep_groupingIds, ih]

theorem timeDeltas_length_eq_times_length (f : List ℚ) (t : ℤ) (b : ℚ) (k : ℕ) :
    (runUpTo f t b k).timeDeltas.length = (runUpTo f t b k).times.length := by
  induction k with
  | zero => rfl
  | succ k ih =>
    rw [runUpTo_succ]
    by_cases h : hits f (runUpTo f t b k) (k + 1)
    · rw [segStep_timeDeltas_pos f t _ _ h, segStep_times_pos f t _ _ h]
      simp [ih]
    · rw [segStep_timeDeltas_neg f t _ _ h, segStep_times_neg f t _ _ h, ih]

theorem thetas_getD_zero (f : List ℚ) (t : ℤ) (b : ℚ) (k : ℕ) :
    (runUpTo f t b k).thetas.getD 0 0 = f.getD 0 0 := by
  induction k with
  | zero => rfl
  | succ k ih =>
    rw [runUpTo_succ, segStep_thetas,
      getD_concat_lt _ _ _ _ (by rw [thetas_length]; omega), ih]

theorem absoluteThetas_getD_zero (f : List ℚ) (t : ℤ) (b : ℚ) (k : ℕ) :
    (runUpTo f t b k).absoluteThetas.getD 0 0 = |f.getD 0 0| := by
  induction k with
  | zero => rfl
  | succ k ih =>
    rw [runUpTo_succ, segStep_absoluteThetas,
      getD_concat_lt _ _ _ _ (by rw [absoluteThetas_length]; omega), ih]

theorem thresholds_getD_zero (f : List ℚ) (t : ℤ) (b : ℚ) (k : ℕ) :
    (runUpTo f t b k).thresholds.getD 0 0 = 0 := by
  induction k with
  | zero => rfl
  | succ k ih =>
    rw [runUpTo_succ, segStep_thresholds,
      getD_concat_lt _ _ _ _ (by rw [thresholds_length]; omega), ih]

theorem groupingIds_getD_zero (f : List ℚ) (t : ℤ) (b : ℚ) (k : ℕ) :
    (runUpTo f t b k).groupingIds.getD 0 0 = 0 := by
  induction k with
  | zero => rfl
  | succ k ih =>
    rw [runUpTo_succ, segStep_groupingIds,
      getD_concat_lt _ _ _ _ (by rw [groupingIds_length]; omega), ih]

theorem thetas_getD_succ (f : List ℚ) (t : ℤ) (b : ℚ) (m K : ℕ) (h : m + 1 ≤ K) :
    (runUpTo f t b K).thetas.getD (m + 1) 0
      = (runUpTo f t b m).currentTheta + f.getD (m + 1) 0 := by
  induction K, h using Nat.le_induction with
  | base =>
    rw [runUpTo_succ, segStep_thetas]
    have hl : (runUpTo f t b m).thetas.length = m + 1 := thetas_length f t b m
    rw [← hl]
    exact getD_concat_length _ _ _
  | succ K hK ih =>
    rw [runUpTo_succ, segStep_thetas,
      getD_concat_lt _ _ _ _ (by rw [thetas_length]; omega), ih]

theorem absoluteThetas_getD_succ (f : List ℚ) (t : ℤ) (b : ℚ) (m K : ℕ)
    (h : m + 1 ≤ K) :
    (runUpTo f t b K).absoluteThetas.getD (m + 1) 0
      = |(runUpTo f t b m).currentTheta + f.getD (m + 1) 0| := by
  induction K, h using Nat.le_induction with
  | base =>
    rw [runUpTo_succ, segStep_absoluteThetas]
    have hl : (runUpTo f t b m).absoluteThetas.length = m + 1 :=
      absoluteThetas_length f t b m
    rw [← hl]
    exact getD_concat_length _ _ _
  | succ K hK ih =>
    rw [runUpTo_succ, segStep_absoluteThetas,
      getD_concat_lt _ _ _ _ (by rw [absoluteThetas_length]; omega), ih]

theorem thresholds_getD_succ (f : List ℚ) (t : ℤ) (b : ℚ) (m K : ℕ)
    (h : m + 1 ≤ K) :
    (runUpTo f t b K).thresholds.getD (m + 1) 0
      = (runUpTo f t b m).expectedTicks * (runUpTo f t b m).expectedBarValue := by
  induction K, h using Nat.le_induction with
  | base =>
    rw [runUpTo_succ, segStep_thresholds]
    have hl : (runUpTo f t b m).thresholds.length = m + 1 := thresholds_length f t b m
    rw [← hl]
    exact getD_concat_length _ _ _
  | succ K hK ih =>
    rw [runUpTo_succ, segStep_thresholds,
      getD_concat_lt _ _ _ _ (by rw [thresholds_length]; omega), ih]

theorem groupingIds_getD_succ (f : List ℚ) (t : ℤ) (b : ℚ) (m K : ℕ)
    (h : m + 1 ≤ K) :
    (runUpTo f t b K).groupingIds.getD (m + 1) 0
      = (runUpTo f t b m).groupingId := by
  induction K, h using Nat.le_induction with
  | base =>
    rw [runUpTo_succ, segStep_groupingIds]
    have hl : (runUpTo f t b m).groupingIds.length = m + 1 := groupingIds_length f t b m
    rw [← hl]
    exact getD_concat_length _ _ _
  | succ K hK ih =>
    rw [runUpTo_succ, segStep_groupingIds,
      getD_concat_lt _ _ _ _ (by rw [groupingIds_length]; omega), ih]

theorem times_bound (f : List ℚ) (t : ℤ) (b : ℚ) (k : ℕ) :
    ∀ x ∈ (runUpTo f t b k).times, 1 ≤ x ∧ x ≤ k := by
  induction k with
  | zero => intro x hx; simp [runUpTo, initState] at hx
  | succ k ih =>
    intro x hx
    rw [runUpTo_succ] at hx
    by_cases h : hits f (runUpTo f t b k) (k + 1)
    · rw [segStep_times_pos f t _ _ h] at hx
      rcases List.mem_append.mp hx with hx | hx
      · have := ih x hx; omega
      · simp at hx; omega
    · rw [segStep_times_neg f t _ _ h] at hx
      have := ih x hx; omega

theorem mem_times_iff (f : List ℚ) (t : ℤ) (b : ℚ) (m K : ℕ) (h : m + 1 ≤ K) :
    (m + 1) ∈ (runUpTo f t b K).times ↔ hits f (runUpTo f t b m) (m + 1) := by
  induction K, h using Nat.le_induction with
  | base =>
    rw [runUpTo_succ]
    by_cases h : hits f (runUpTo f t b m) (m + 1)
    · rw [segStep_times_pos f t _ _ h]
      simp [h]
    · rw [segStep_times_neg f t _ _ h]
      simp only [h, iff_false]
      intro hmem
      have := times_bound f t b m _ hmem
      omega
  | succ K hK ih =>
    rw [runUpTo_succ]
    by_cases h : hits f (runUpTo f t b K) (K + 1)
    · rw [segStep_times_pos f t _ _ h]
      rw [List.mem_append]
      constructor
      · rintro (hx | hx)
        · exact ih.mp hx
        · simp at hx; omega
      · intro hx
        exact Or.inl (ih.mpr hx)
    · rw [segStep_times_neg f t _ _ h]
      exact ih

theorem times_filter_le (f : List ℚ) (t : ℤ) (b : ℚ) (j K : ℕ) (h : j ≤ K) :
    (runUpTo f t b K).times.filter (fun x => decide (x ≤ j))
      = (runUpTo f t b j).times := by
  induction K, h using Nat.le_induction with
  | base =>
    apply List.filter_eq_self.mpr
    intro x hx
    exact decide_eq_true ((times_bound f t b j x hx).2)
  | succ K hK ih =>
    rw [runUpTo_succ]
    by_cases h : hits f (runUpTo f t b K) (K + 1)
    · rw [segStep_times_pos f t _ _ h, List.filter_append, ih]
      have : ¬ (K + 1 ≤ j) := by omega
      simp [this]
    · rw [segStep_times_neg f t _ _ h, ih]

theorem times_sorted (f : List ℚ) (t : ℤ) (b : ℚ) (k : ℕ) :
    (runUpTo f t b k).times.Sorted (· < ·) := by
  induction k with
  | zero => simp [runUpTo, initState]
  | succ k ih =>
    rw [runUpTo_succ]
    by_cases h : hits f (runUpTo f t b k) (k + 1)
    · rw [segStep_times_pos f t _ _ h]
      rw [List.Sorted, List.pairwise_append]
      refine ⟨ih, List.pairwise_singleton _ _, ?_⟩
      intro x hx y hy
      simp at hy
      have := times_bound f t b k x hx
      omega
    · rw [segStep_times_neg f t _ _ h]
      exact ih

theorem groupingId_eq_times_length (f : List ℚ) (t : ℤ) (b : ℚ) (k : ℕ) :
    (runUpTo f t b k).groupingId = (runUpTo f t b k).times.length := by
  induction k with
  | zero => rfl
  | succ k ih =>
    rw [runUpTo_succ]
    by_cases h : hits f (runUpTo f t b k) (k + 1)
    · rw [segStep_groupingId_pos f t _ _ h, segStep_times_pos f t _ _ h]
      simp [ih]
    · rw [segStep_groupingId_neg f t _ _ h, segStep_times_neg f t _ _ h, ih]

theorem previousTime_eq_getLastD (f : List ℚ) (t : ℤ) (b : ℚ) (k : ℕ) :
    (runUpTo f t b k).previousTime = (runUpTo f t b k).times.getLastD 0 := by
  induction k with
  | zero => rfl
  | succ k ih =>
    rw [runUpTo_succ]
    by_cases h : hits f (runUpTo f t b k) (k + 1)
    · rw [segStep_previousTime_pos f t _ _ h, segStep_times_pos f t _ _ h,
        List.getLastD_concat]
    · rw [segStep_previousTime_neg f t _ _ h, segStep_times_neg f t _ _ h, ih]

theorem timeDeltas_sum (f : List ℚ) (t : ℤ) (b : ℚ) (k : ℕ) :
    (runUpTo f t b k).timeDeltas.sum = ((runUpTo f t b k).previousTime : ℚ) := by
  induction k with
  | zero => simp [runUpTo, initState]
  | succ k ih =>
    rw [runUpTo_succ]
    by_cases h : hits f (runUpTo f t b k) (k + 1)
    · rw [segStep_timeDeltas_pos f t _ _ h, segStep_previousTime_pos f t _ _ h,
        List.sum_append, ih]
      simp
    · rw [segStep_timeDeltas_neg f t _ _ h, segStep_previousTime_neg f t _ _ h, ih]

theorem timeDeltas_getD_eq (f : List ℚ) (t : ℤ) (b : ℚ) (k : ℕ) :
    ∀ m < (runUpTo f t b k).times.length,
      (runUpTo f t b k).timeDeltas.getD m 0
        = ((runUpTo f t b k).times.getD m 0 : ℚ)
          - (if m = 0 then 0 else ((runUpTo f t b k).times.getD (m - 1) 0 : ℚ)) := by
  induction k with
  | zero => intro m hm; simp [runUpTo, initState] at hm
  | succ k ih =>
    intro m hm
    rw [runUpTo_succ]
    by_cases h : hits f (runUpTo f t b k) (k + 1)
    · rw [segStep_timeDeltas_pos f t _ _ h, segStep_times_pos f t _ _ h]
      rw [runUpTo_succ, segStep_times_pos f t _ _ h] at hm
      simp only [List.length_append, List.length_singleton] at hm
      by_cases hm' : m < (runUpTo f t b k).times.length
      · rw [getD_concat_lt _ _ _ _ hm',
          getD_concat_lt _ _ _ _
            (by rw [timeDeltas_length_eq_times_length]; exact hm')]
        rcases Nat.eq_zero_or_pos m with h0 | h0
        · subst h0
          simp only [if_pos rfl]
          exact ih 0 hm'
        · rw [if_neg (by omega)]
          have := ih m hm'
          rw [if_neg (by omega)] at this
          rw [this, getD_concat_lt _ _ _ _ (by omega)]
      · have hm'' : m = (runUpTo f t b k).times.length := by omega
        subst hm''
        have hd : (runUpTo f t b k).timeDeltas.length
            = (runUpTo f t b k).times.length :=
          timeDeltas_length_eq_times_length f t b k
        have lhs_eq : ((runUpTo f t b k).timeDeltas
            ++ [((k + 1 : ℕ) : ℚ) - ((runUpTo f t b k).previousTime : ℚ)]).getD
              (runUpTo f t b k).times.length 0
            = ((k + 1 : ℕ) : ℚ) - ((runUpTo f t b k).previousTime : ℚ) := by
          rw [← hd]
          exact getD_concat_length _ _ _
        rw [lhs_eq, getD_concat_length]
        rcases Nat.eq_zero_or_pos (runUpTo f t b k).times.length with h0 | h0
        · have hnil : (runUpTo f t b k).times = [] := List.length_eq_zero.mp h0
          have hprev : (runUpTo f t b k).previousTime = 0 := by
            rw [previousTime_eq_getLastD, hnil]
            rfl
          rw [h0, if_pos rfl, hprev]
          norm_num
        · have hne : (runUpTo f t b k).times ≠ [] := by
            intro hnil
            rw [hnil] at h0
            simp at h0
          rw [if_neg (by omega), getD_concat_lt _ _ _ _ (by omega)]
          have hprev : ((runUpTo f t b k).previousTime : ℚ)
              = ((runUpTo f t b k).times.getD
                  ((runUpTo f t b k).times.length - 1) 0 : ℚ) := by
            rw [previousTime_eq_getLastD, getLastD_eq_getD _ _ hne]
          rw [hprev]
    · rw [segStep_timeDeltas_neg f t _ _ h, segStep_times_neg f t _ _ h]
      rw [runUpTo_succ, segStep_times_neg f t _ _ h] at hm
      exact ih m hm

theorem estimates_stable (f : List ℚ) (t : ℤ) (b : ℚ) (j k : ℕ) (hjk : j ≤ k)
    (h : ∀ m, j ≤ m → m < k → ¬ hits f (runUpTo f t b m) (m + 1)) :
    (runUpTo f t b k).expectedTicks = (runUpTo f t b j).expectedTicks ∧
    (runUpTo f t b k).expectedBarValue = (runUpTo f t b j).expectedBarValue := by
  induction k, hjk using Nat.le_induction with
  | base => exact ⟨rfl, rfl⟩
  | succ k hk ih =>
    have hk' : ¬ hits f (runUpTo f t b k) (k + 1) := h k hk (by omega)
    have ih' := ih fun m hm hm' => h m hm (by omega)
    rw [runUpTo_succ, segStep_expectedTicks_neg f t _ _ hk',
      segStep_expectedBarValue_neg f t _ _ hk']
    exact ih'

theorem estimates_at_boundary (f : List ℚ) (t : ℤ) (b : ℚ) (m : ℕ)
    (h : hits f (runUpTo f t b m) (m + 1)) :
    (runUpTo f t b (m + 1)).expectedTicks
      = (exponential_weighted_moving_average (runUpTo f t b (m + 1)).timeDeltas
          ((runUpTo f t b (m + 1)).timeDeltas.length : ℤ)).getLastD 0 ∧
    (runUpTo f t b (m + 1)).expectedBarValue
      = |(exponential_weighted_moving_average (f.take (m + 1)) t).getLastD 0| := by
  constructor
  · rw [runUpTo_succ, segStep_expectedTicks_pos f t _ _ h,
      segStep_timeDeltas_pos f t _ _ h]
  · rw [runUpTo_succ, segStep_expectedBarValue_pos f t _ _ h]

theorem timeDeltas_take (f : List ℚ) (t : ℤ) (b : ℚ) (j K : ℕ) (h : j ≤ K) :
    (runUpTo f t b K).timeDeltas.take (runUpTo f t b j).timeDeltas.length
      = (runUpTo f t b j).timeDeltas := by
  induction K, h using Nat.le_induction with
  | base => exact List.take_length _
  | succ K hK ih =>
    have hlen : (runUpTo f t b j).timeDeltas.length
        ≤ (runUpTo f t b K).timeDeltas.length := by
      have := congrArg List.length ih
      simp only [List.length_take] at this
      omega
    rw [runUpTo_succ]
    by_cases hb : hits f (runUpTo f t b K) (K + 1)
    · rw [segStep_timeDeltas_pos f t _ _ hb,
        List.take_append_of_le_length hlen, ih]
    · rw [segStep_timeDeltas_neg f t _ _ hb, ih]

theorem segStep_groupingId_ge (f : List ℚ) (t : ℤ) (s : SegState) (i : ℕ) :
    s.groupingId ≤ (segStep f t s i).groupingId := by
  by_cases h : hits f s i
  · rw [segStep_groupingId_pos f t _ _ h]; omega
  · rw [segStep_groupingId_neg f t _ _ h]

theorem groupingIds_sorted_aux (f : List ℚ) (t : ℤ) (b : ℚ) (k : ℕ) :
    (runUpTo f t b k).groupingIds.Sorted (· ≤ ·) ∧
    ∀ x ∈ (runUpTo f t b k).groupingIds, x ≤ (runUpTo f t b k).groupingId := by
  induction k with
  | zero =>
    refine ⟨by simp [runUpTo, initState], ?_⟩
    intro x hx
    simp [runUpTo, initState] at hx
    omega
  | succ k ih =>
    obtain ⟨hs, hbd⟩ := ih
    rw [runUpTo_succ, segStep_groupingIds]
    constructor
    · rw [List.Sorted, List.pairwise_append]
      refine ⟨hs, List.pairwise_singleton _ _, ?_⟩
      intro x hx y hy
      simp at hy
      subst hy
      exact hbd x hx
    · intro x hx
      have hstep := segStep_groupingId_ge f t (runUpTo f t b k) (k + 1)
      rcases List.mem_append.mp hx with hx | hx
      · have := hbd x hx
        omega
      · simp at hx
        subst hx
        omega

theorem length_pred_succ (f : List ℚ) (hf : f ≠ []) : f.length - 1 + 1 = f.length :=
  Nat.succ_pred_eq_of_pos (List.length_pos.mpr hf)

/-- C1: the code performs no precondition validation.  The only failing
input is an empty feature series (an out-of-bounds read of `features[0]`,
not an `InvalidInput` failure); every nonempty input succeeds whatever the
values of `initial_expected_ticks` and `initial_bar_size`. -/
theorem claim_C1 (f : List ℚ) (t : ℤ) (b : ℚ) :
    (compute_thresholds f t b).isSome = true ↔ f ≠ [] := by
  cases f with
  | nil => simp [compute_thresholds]
  | cons x xs => simp [compute_thresholds]

/-- C1 counterexample: the input `features = [1]`,
`initial_expected_ticks = 0`, `initial_bar_size = -1` violates the spec's
preconditions (`initial_expected_ticks ≥ 1`, `initial_bar_size > 0`), yet
the call does not fail: it returns a result. -/
theorem claim_C1_counterexample :
    ¬ (1 ≤ (0 : ℤ)) ∧ ¬ ((0 : ℚ) < -1) ∧
    (compute_thresholds [1] 0 (-1)).isSome = true := by
  refine ⟨by norm_num, by norm_num, ?_⟩
  rfl

/-- C6: immediately after a boundary at index `i` (with `i + 1` still in
range), the cumulative statistic was reset to zero, so
`Statistic[i+1] = features[i+1]` exactly. -/
theorem claim_C6 (f : List ℚ) (t : ℤ) (b : ℚ)
    (hf : f ≠ []) (ht : 1 ≤ t) (hb : 0 < b) :
    ∀ i ∈ timesOf f t b, i + 1 < f.length →
      (thetasOf f t b).getD (i + 1) 0 = f.getD (i + 1) 0 := by
  intro i hi hlt
  have hn := length_pred_succ f hf
  have hi' : i ∈ (runUpTo f t b (f.length - 1)).times := hi
  obtain ⟨h1, hK⟩ := times_bound f t b (f.length - 1) i hi'
  obtain ⟨m, rfl⟩ : ∃ m, i = m + 1 := ⟨i - 1, by omega⟩
  have hhits : hits f (runUpTo f t b m) (m + 1) :=
    (mem_times_iff f t b m (f.length - 1) (by omega)).mp hi'
  have hgoal : (runUpTo f t b (f.length - 1)).thetas.getD (m + 1 + 1) 0
      = (runUpTo f t b (m + 1)).currentTheta + f.getD (m + 1 + 1) 0 :=
    thetas_getD_succ f t b (m + 1) (f.length - 1) (by omega)
  have hzero : (runUpTo f t b (m + 1)).currentTheta = 0 := by
    rw [runUpTo_succ]
    exact segStep_currentTheta_pos f t _ _ hhits
  show (runUpTo f t b (f.length - 1)).thetas.getD (m + 1 + 1) 0 = _
  rw [hgoal, hzero, zero_add]

/-- C7: each `TimeDeltas` entry is the difference of consecutive boundary
indices (the first one counted from index 0), and the sum of `TimeDeltas`
equals the last boundary index when a boundary exists. -/
theorem claim_C7 (f : List ℚ) (t : ℤ) (b : ℚ)
    (hf : f ≠ []) (ht : 1 ≤ t) (hb : 0 < b) :
    (∀ k, k < (timesOf f t b).length →
      (timeDeltasOf f t b).getD k 0
        = ((timesOf f t b).getD k 0 : ℚ)
          - (if k = 0 then 0 else ((timesOf f t b).getD (k - 1) 0 : ℚ))) ∧
    (timesOf f t b ≠ [] →
      (timeDeltasOf f t b).sum = ((timesOf f t b).getLastD 0 : ℚ)) := by
  constructor
  · intro k hk
    exact timeDeltas_getD_eq f t b (f.length - 1) k hk
  · intro hne
    show (runUpTo f t b (f.length - 1)).timeDeltas.sum = _
    rw [timeDeltas_sum, previousTime_eq_getLastD]
    rfl

/-- C8: the four per-step output sequences have the length of the input
feature series, and `TimeDeltas` and `BoundaryIndices` have equal
lengths. -/
theorem claim_C8 (f : List ℚ) (t : ℤ) (b : ℚ)
    (hf : f ≠ []) (ht : 1 ≤ t) (hb : 0 < b) :
    (absStatOf f t b).length = f.length ∧
    (threshOf f t b).length = f.length ∧
    (thetasOf f t b).length = f.length ∧
    (groupIdsOf f t b).length = f.length ∧
    (timeDeltasOf f t b).length = (timesOf f t b).length := by
  have hn := length_pred_succ f hf
  refine ⟨?_, ?_, ?_, ?_, ?_⟩
  · show (runUpTo f t b (f.length - 1)).absoluteThetas.length = _
    rw [absoluteThetas_length, hn]
  · show (runUpTo f t b (f.length - 1)).thresholds.length = _
    rw [thresholds_length, hn]
  · show (runUpTo f t b (f.length - 1)).thetas.length = _
    rw [thetas_length, hn]
  · show (runUpTo f t b (f.length - 1)).groupingIds.length = _
    rw [groupingIds_length, hn]
  · exact timeDeltas_length_eq_times_length f t b (f.length - 1)

/-- C10: at a boundary `i` the recorded `GroupId[i]` is the identifier of
the bar ending there — the incremented identifier only appears from
`GroupId[i+1]` on — and index 0 never appears in `BoundaryIndices`. -/
theorem claim_C10 (f : List ℚ) (t : ℤ) (b : ℚ)
    (hf : f ≠ []) (ht : 1 ≤ t) (hb : 0 < b) :
    0 ∉ timesOf f t b ∧
    ∀ i ∈ timesOf f t b, i + 1 < f.length →
      (groupIdsOf f t b).getD (i + 1) 0 = (groupIdsOf f t b).getD i 0 + 1 := by
  constructor
  · intro h0
    have := times_bound f t b (f.length - 1) 0 h0
    omega
  · intro i hi hlt
    have hn := length_pred_succ f hf
    have hi' : i ∈ (runUpTo f t b (f.length - 1)).times := hi
    obtain ⟨h1, hK⟩ := times_bound f t b (f.length - 1) i hi'
    obtain ⟨m, rfl⟩ : ∃ m, i = m + 1 := ⟨i - 1, by omega⟩
    have hhits : hits f (runUpTo f t b m) (m + 1) :=
      (mem_times_iff f t b m (f.length - 1) (by omega)).mp hi'
    have e1 : (groupIdsOf f t b).getD (m + 1 + 1) 0
        = (runUpTo f t b (m + 1)).groupingId :=
      groupingIds_getD_succ f t b (m + 1) (f.length - 1) (by omega)
    have e2 : (groupIdsOf f t b).getD (m + 1) 0 = (runUpTo f t b m).groupingId :=
      groupingIds_getD_succ f t b m (f.length - 1) (by omega)
    rw [e1, e2, runUpTo_succ]
    exact segStep_groupingId_pos f t _ _ hhits

/-- C2 counterexample: at index 0 the trigger inequality
`AbsStatistic[0] ≥ Threshold[0]` always holds (`Threshold[0]` is the zero
default), yet index 0 never appears in `BoundaryIndices`; here on the
precondition-satisfying input `features = [0]`,
`initial_expected_ticks = 1`, `initial_bar_size = 1`. -/
theorem claim_C2_counterexample :
    (threshOf [0] 1 1).getD 0 0 ≤ (absStatOf [0] 1 1).getD 0 0 ∧
    0 ∉ timesOf [0] 1 1 := by
  constructor
  · norm_num [threshOf, absStatOf, runSeg, runUpTo, initState]
  · simp [timesOf, runSeg, runUpTo, initState]

/-- C2 (amended): for every index `i ≥ 1` — index 0 is never evaluated
against a threshold — `i` is a member of `BoundaryIndices` exactly when
`AbsStatistic[i] ≥ Threshold[i]`. -/
theorem claim_C2 (f : List ℚ) (t : ℤ) (b : ℚ)
    (hf : f ≠ []) (ht : 1 ≤ t) (hb : 0 < b) :
    ∀ i, 1 ≤ i → i < f.length →
      (i ∈ timesOf f t b ↔
        (threshOf f t b).getD i 0 ≤ (absStatOf f t b).getD i 0) := by
  intro i h1 hlt
  have hn := length_pred_succ f hf
  obtain ⟨m, rfl⟩ : ∃ m, i = m + 1 := ⟨i - 1, by omega⟩
  have hK : m + 1 ≤ f.length - 1 := by omega
  have e1 : (threshOf f t b).getD (m + 1) 0
      = (runUpTo f t b m).expectedTicks * (runUpTo f t b m).expectedBarValue :=
    thresholds_getD_succ f t b m (f.length - 1) hK
  have e2 : (absStatOf f t b).getD (m + 1) 0
      = |(runUpTo f t b m).currentTheta + f.getD (m + 1) 0| :=
    absoluteThetas_getD_succ f t b m (f.length - 1) hK
  rw [e1, e2]
  exact mem_times_iff f t b m (f.length - 1) hK

/-- C3 counterexample: on `features = [1, 1]`,
`initial_expected_ticks = 1`, `initial_bar_size = 1` (all preconditions
hold) a boundary is declared at the final index 1, so the final `GroupId`
entry is `0` while `len(TimeDeltas)` is `1`. -/
theorem claim_C3_counterexample :
    (groupIdsOf [1, 1] 1 1).getD 1 0 = 0 ∧
    (timeDeltasOf [1, 1] 1 1).length = 1 := by
  constructor
  · norm_num [groupIdsOf, runSeg, runUpTo, segStep, initState,
      exponential_weighted_moving_average, ewmaFrom]
  · norm_num [timeDeltasOf, runSeg, runUpTo, segStep, initState,
      exponential_weighted_moving_average, ewmaFrom]

/-- C3 (amended): `GroupId` is monotonically non-decreasing, and its final
entry counts the boundaries declared at indices strictly before the final
index: it equals `len(TimeDeltas)` when the final index is not a boundary
and `len(TimeDeltas) - 1` when it is. -/
theorem claim_C3 (f : List ℚ) (t : ℤ) (b : ℚ)
    (hf : f ≠ []) (ht : 1 ≤ t) (hb : 0 < b) :
    (groupIdsOf f t b).Sorted (· ≤ ·) ∧
    (groupIdsOf f t b).getD (f.length - 1) 0
      + (if (f.length - 1) ∈ timesOf f t b then 1 else 0)
      = (timeDeltasOf f t b).length := by
  constructor
  · exact (groupingIds_sorted_aux f t b (f.length - 1)).1
  · have hd : (timeDeltasOf f t b).length
        = (runUpTo f t b (f.length - 1)).times.length :=
      timeDeltas_length_eq_times_length f t b (f.length - 1)
    rcases Nat.eq_zero_or_pos (f.length - 1) with h0 | hpos
    · have hnil : (runUpTo f t b 0).times = [] := rfl
      have hmem : (f.length - 1) ∉ timesOf f t b := by
        show (f.length - 1) ∉ (runUpTo f t b (f.length - 1)).times
        rw [h0, hnil]
        simp
      rw [if_neg hmem]
      have hgid : (groupIdsOf f t b).getD (f.length - 1) 0 = 0 := by
        show (runUpTo f t b (f.length - 1)).groupingIds.getD (f.length - 1) 0 = 0
        rw [h0]
        exact groupingIds_getD_zero f t b 0
      rw [hgid, hd, h0, hnil]
      rfl
    · obtain ⟨m, hm⟩ : ∃ m, f.length - 1 = m + 1 := ⟨f.length - 2, by omega⟩
      have e1 : (groupIdsOf f t b).getD (m + 1) 0 = (runUpTo f t b m).groupingId :=
        groupingIds_getD_succ f t b m (f.length - 1) (by omega)
      have hiff : (m + 1) ∈ timesOf f t b ↔ hits f (runUpTo f t b m) (m + 1) :=
        mem_times_iff f t b m (f.length - 1) (by omega)
      rw [hm, e1, hd, hm, runUpTo_succ, groupingId_eq_times_length]
      by_cases hb' : hits f (runUpTo f t b m) (m + 1)
      · rw [if_pos (hiff.mpr hb'), segStep_times_pos f t _ _ hb']
        simp
      · rw [if_neg (fun hmem => hb' (hiff.mp hmem)),
          segStep_times_neg f t _ _ hb']
        omega

/-- C4: `Threshold[0] = 0`, and for `i ≥ 1` the value `Threshold[i]` is the
product of the expected-tick-count and expected-bar-magnitude estimates in
effect before step `i`: the seed product `initial_expected_ticks ×
initial_bar_size` while no boundary has occurred before `i`, and otherwise
the estimates fixed at the most recent boundary `j < i`. -/
theorem claim_C4 (f : List ℚ) (t : ℤ) (b : ℚ)
    (hf : f ≠ []) (ht : 1 ≤ t) (hb : 0 < b) :
    (threshOf f t b).getD 0 0 = 0 ∧
    ∀ i, 1 ≤ i → i < f.length →
      ((∀ l ∈ timesOf f t b, ¬ l < i) →
        (threshOf f t b).getD i 0 = (t : ℚ) * b) ∧
      (∀ j ∈ timesOf f t b, j < i →
        (∀ l ∈ timesOf f t b, l < i → l ≤ j) →
        (threshOf f t b).getD i 0
          = (runUpTo f t b j).expectedTicks * (runUpTo f t b j).expectedBarValue) := by
  have hn := length_pred_succ f hf
  constructor
  · exact thresholds_getD_zero f t b (f.length - 1)
  · intro i h1 hlt
    obtain ⟨m, rfl⟩ : ∃ m, i = m + 1 := ⟨i - 1, by omega⟩
    have hK : m + 1 ≤ f.length - 1 := by omega
    have e1 : (threshOf f t b).getD (m + 1) 0
        = (runUpTo f t b m).expectedTicks * (runUpTo f t b m).expectedBarValue :=
      thresholds_getD_succ f t b m (f.length - 1) hK
    constructor
    · intro hA
      have hstab := estimates_stable f t b 0 m (Nat.zero_le m) ?_
      · rw [e1, hstab.1, hstab.2]
        rfl
      · intro l _ hl hhit
        have hmem : (l + 1) ∈ timesOf f t b :=
          (mem_times_iff f t b l (f.length - 1) (by omega)).mpr hhit
        exact hA (l + 1) hmem (by omega)
    · intro j hj hji hmax
      have hj' : j ∈ (runUpTo f t b (f.length - 1)).times := hj
      obtain ⟨hj1, hjK⟩ := times_bound f t b (f.length - 1) j hj'
      have hstab := estimates_stable f t b j m (by omega) ?_
      · rw [e1, hstab.1, hstab.2]
      · intro l hl hlm hhit
        have hmem : (l + 1) ∈ timesOf f t b :=
          (mem_times_iff f t b l (f.length - 1) (by omega)).mpr hhit
        have := hmax (l + 1) hmem (by omega)
        omega

/-- C5 counterexample: on `features = [1, 3, 0]`,
`initial_expected_ticks = 1`, `initial_bar_size = 1` a boundary is
declared at index 1, after which the expected-bar-magnitude estimate is
`1` — the absolute last output of the smoothing primitive over
`features[:1] = [1]` — whereas the claim's "prefix from index 0 through
i", smoothed with the same span, has absolute last output `3`. -/
theorem claim_C5_counterexample :
    1 ∈ timesOf [1, 3, 0] 1 1 ∧
    (runUpTo [1, 3, 0] 1 1 1).expectedBarValue = 1 ∧
    |(exponential_weighted_moving_average
        (List.take (1 + 1) [(1 : ℚ), 3, 0]) 1).getLastD 0| = 3 := by
  refine ⟨?_, ?_, ?_⟩
  · norm_num [timesOf, runSeg, runUpTo, segStep, initState,
      exponential_weighted_moving_average, ewmaFrom]
  · norm_num [runUpTo, segStep, initState,
      exponential_weighted_moving_average, ewmaFrom]
  · norm_num [exponential_weighted_moving_average, ewmaFrom]

/-- C5 (amended): at every boundary `i`, the expected-tick-count estimate
becomes the last output of the smoothing primitive applied to the
`TimeDeltas` recorded so far (span = number of boundaries observed so
far), and the expected-bar-magnitude estimate becomes the absolute last
output of the smoothing primitive applied to the prefix of `features`
from index 0 through `i - 1` (`features[:i]`, excluding the triggering
index `i`), with span `initial_expected_ticks`. -/
theorem claim_C5 (f : List ℚ) (t : ℤ) (b : ℚ)
    (hf : f ≠ []) (ht : 1 ≤ t) (hb : 0 < b) :
    ∀ i ∈ timesOf f t b,
      (runUpTo f t b i).expectedTicks
        = (exponential_weighted_moving_average
            ((timeDeltasOf f t b).take
              (((timesOf f t b).filter (fun x => decide (x ≤ i))).length))
            ((((timesOf f t b).filter (fun x => decide (x ≤ i))).length : ℕ) : ℤ)).getLastD 0 ∧
      (runUpTo f t b i).expectedBarValue
        = |(exponential_weighted_moving_average (f.take i) t).getLastD 0| := by
  intro i hi
  have hn := length_pred_succ f hf
  have hi' : i ∈ (runUpTo f t b (f.length - 1)).times := hi
  obtain ⟨h1, hK⟩ := times_bound f t b (f.length - 1) i hi'
  obtain ⟨m, rfl⟩ : ∃ m, i = m + 1 := ⟨i - 1, by omega⟩
  have hhits : hits f (runUpTo f t b m) (m + 1) :=
    (mem_times_iff f t b m (f.length - 1) (by omega)).mp hi'
  have hfilter : (timesOf f t b).filter (fun x => decide (x ≤ m + 1))
      = (runUpTo f t b (m + 1)).times :=
    times_filter_le f t b (m + 1) (f.length - 1) (by omega)
  have hflen : ((timesOf f t b).filter (fun x => decide (x ≤ m + 1))).length
      = (runUpTo f t b (m + 1)).timeDeltas.length := by
    rw [hfilter, timeDeltas_length_eq_times_length]
  have htake : (timeDeltasOf f t b).take (runUpTo f t b (m + 1)).timeDeltas.length
      = (runUpTo f t b (m + 1)).timeDeltas :=
    timeDeltas_take f t b (m + 1) (f.length - 1) (by omega)
  rw [hflen, htake]
  exact estimates_at_boundary f t b m hhits

theorem timesOf_eval : timesOf [1, 1, 1] 2 1 = [1, 2] := by
  norm_num [timesOf, runSeg, runUpTo, segStep, initState,
    exponential_weighted_moving_average, ewmaFrom]

/-- C2 witness: the amended claim, evaluated on `features = [1, 1, 1]`,
`initial_expected_ticks = 2`, `initial_bar_size = 1` at index 1. -/
theorem claim_C2_witness :
    ([(1 : ℚ), 1, 1] ≠ [] ∧ 1 ≤ (2 : ℤ) ∧ (0 : ℚ) < 1 ∧ 1 ≤ 1 ∧
      1 < [(1 : ℚ), 1, 1].length) ∧
    (1 ∈ timesOf [1, 1, 1] 2 1 ↔
      (threshOf [1, 1, 1] 2 1).getD 1 0 ≤ (absStatOf [1, 1, 1] 2 1).getD 1 0) :=
  ⟨⟨by simp, by norm_num, by norm_num, le_refl 1, by simp⟩,
    claim_C2 [1, 1, 1] 2 1 (by simp) (by norm_num) (by norm_num) 1 (le_refl 1)
      (by simp)⟩

/-- C3 witness: the amended claim, evaluated on `features = [1, 1, 1]`,
`initial_expected_ticks = 2`, `initial_bar_size = 1`. -/
theorem claim_C3_witness :
    ([(1 : ℚ), 1, 1] ≠ [] ∧ 1 ≤ (2 : ℤ) ∧ (0 : ℚ) < 1) ∧
    ((groupIdsOf [1, 1, 1] 2 1).Sorted (· ≤ ·) ∧
      (groupIdsOf [1, 1, 1] 2 1).getD ([(1 : ℚ), 1, 1].length - 1) 0
        + (if ([(1 : ℚ), 1, 1].length - 1) ∈ timesOf [1, 1, 1] 2 1 then 1 else 0)
        = (timeDeltasOf [1, 1, 1] 2 1).length) :=
  ⟨⟨by simp, by norm_num, by norm_num⟩,
    claim_C3 [1, 1, 1] 2 1 (by simp) (by norm_num) (by norm_num)⟩

/-- C4 witness: the claim, evaluated on `features = [1, 1, 1]`,
`initial_expected_ticks = 2`, `initial_bar_size = 1` at index 1, where no
boundary precedes the index and the threshold is the seed product. -/
theorem claim_C4_witness :
    ([(1 : ℚ), 1, 1] ≠ [] ∧ 1 ≤ (2 : ℤ) ∧ (0 : ℚ) < 1) ∧
    (threshOf [1, 1, 1] 2 1).getD 0 0 = 0 ∧
    (threshOf [1, 1, 1] 2 1).getD 1 0 = ((2 : ℤ) : ℚ) * 1 :=
  ⟨⟨by simp, by norm_num, by norm_num⟩,
    (claim_C4 [1, 1, 1] 2 1 (by simp) (by norm_num) (by norm_num)).1,
    ((claim_C4 [1, 1, 1] 2 1 (by simp) (by norm_num) (by norm_num)).2 1
        (le_refl 1) (by simp)).1
      (by
        intro l hl
        rw [timesOf_eval] at hl
        simp at hl
        omega)⟩

/-- C5 witness: the amended claim, evaluated on `features = [1, 1, 1]`,
`initial_expected_ticks = 2`, `initial_bar_size = 1` at the boundary
index 1. -/
theorem claim_C5_witness :
    ([(1 : ℚ), 1, 1] ≠ [] ∧ 1 ≤ (2 : ℤ) ∧ (0 : ℚ) < 1 ∧
      1 ∈ timesOf [1, 1, 1] 2 1) ∧
    ((runUpTo [1, 1, 1] 2 1 1).expectedTicks
      = (exponential_weighted_moving_average
          ((timeDeltasOf [1, 1, 1] 2 1).take
            (((timesOf [1, 1, 1] 2 1).filter (fun x => decide (x ≤ 1))).length))
          ((((timesOf [1, 1, 1] 2 1).filter
              (fun x => decide (x ≤ 1))).length : ℕ) : ℤ)).getLastD 0 ∧
     (runUpTo [1, 1, 1] 2 1 1).expectedBarValue
      = |(exponential_weighted_moving_average
          ([(1 : ℚ), 1, 1].take 1) 2).getLastD 0|) :=
  ⟨⟨by simp, by norm_num, by norm_num, by rw [timesOf_eval]; simp⟩,
    claim_C5 [1, 1, 1] 2 1 (by simp) (by norm_num) (by norm_num) 1
      (by rw [timesOf_eval]; simp)⟩

/-- C6 witness: the claim, evaluated on `features = [1, 1, 1]`,
`initial_expected_ticks = 2`, `initial_bar_size = 1` at the boundary
index 1: `Statistic[2] = features[2]`. -/
theorem claim_C6_witness :
    ([(1 : ℚ), 1, 1] ≠ [] ∧ 1 ≤ (2 : ℤ) ∧ (0 : ℚ) < 1 ∧
      1 ∈ timesOf [1, 1, 1] 2 1 ∧ 1 + 1 < [(1 : ℚ), 1, 1].length) ∧
    (thetasOf [1, 1, 1] 2 1).getD (1 + 1) 0 = [(1 : ℚ), 1, 1].getD (1 + 1) 0 :=
  ⟨⟨by simp, by norm_num, by norm_num, by rw [timesOf_eval]; simp, by simp⟩,
    claim_C6 [1, 1, 1] 2 1 (by simp) (by norm_num) (by norm_num) 1
      (by rw [timesOf_eval]; simp) (by simp)⟩

/-- C7 witness: the claim, evaluated on `features = [1, 1, 1]`,
`initial_expected_ticks = 2`, `initial_bar_size = 1`, at entry 0 of
`TimeDeltas` and for the sum identity. -/
theorem claim_C7_witness :
    ([(1 : ℚ), 1, 1] ≠ [] ∧ 1 ≤ (2 : ℤ) ∧ (0 : ℚ) < 1 ∧
      0 < (timesOf [1, 1, 1] 2 1).length ∧ timesOf [1, 1, 1] 2 1 ≠ []) ∧
    (timeDeltasOf [1, 1, 1] 2 1).getD 0 0
      = ((timesOf [1, 1, 1] 2 1).getD 0 0 : ℚ)
        - (if (0 : ℕ) = 0 then 0 else ((timesOf [1, 1, 1] 2 1).getD (0 - 1) 0 : ℚ)) ∧
    (timeDeltasOf [1, 1, 1] 2 1).sum = ((timesOf [1, 1, 1] 2 1).getLastD 0 : ℚ) :=
  ⟨⟨by simp, by norm_num, by norm_num, by rw [timesOf_eval]; simp,
      by rw [timesOf_eval]; simp⟩,
    (claim_C7 [1, 1, 1] 2 1 (by simp) (by norm_num) (by norm_num)).1 0
      (by rw [timesOf_eval]; simp),
    (claim_C7 [1, 1, 1] 2 1 (by simp) (by norm_num) (by norm_num)).2
      (by rw [timesOf_eval]; simp)⟩

/-- C8 witness: the claim, evaluated on `features = [1, 1, 1]`,
`initial_expected_ticks = 2`, `initial_bar_size = 1`. -/
theorem claim_C8_witness :
    ([(1 : ℚ), 1, 1] ≠ [] ∧ 1 ≤ (2 : ℤ) ∧ (0 : ℚ) < 1) ∧
    ((absStatOf [1, 1, 1] 2 1).length = [(1 : ℚ), 1, 1].length ∧
     (threshOf [1, 1, 1] 2 1).length = [(1 : ℚ), 1, 1].length ∧
     (thetasOf [1, 1, 1] 2 1).length = [(1 : ℚ), 1, 1].length ∧
     (groupIdsOf [1, 1, 1] 2 1).length = [(1 : ℚ), 1, 1].length ∧
     (timeDeltasOf [1, 1, 1] 2 1).length = (timesOf [1, 1, 1] 2 1).length) :=
  ⟨⟨by simp, by norm_num, by norm_num⟩,
    claim_C8 [1, 1, 1] 2 1 (by simp) (by norm_num) (by norm_num)⟩

/-- C10 witness: the claim, evaluated on `features = [1, 1, 1]`,
`initial_expected_ticks = 2`, `initial_bar_size = 1` at the boundary
index 1. -/
theorem claim_C10_witness :
    ([(1 : ℚ), 1, 1] ≠ [] ∧ 1 ≤ (2 : ℤ) ∧ (0 : ℚ) < 1 ∧
      1 ∈ timesOf [1, 1, 1] 2 1 ∧ 1 + 1 < [(1 : ℚ), 1, 1].length) ∧
    0 ∉ timesOf [1, 1, 1] 2 1 ∧
    (groupIdsOf [1, 1, 1] 2 1).getD (1 + 1) 0
      = (groupIdsOf [1, 1, 1] 2 1).getD 1 0 + 1 :=
  ⟨⟨by simp, by norm_num, by norm_num, by rw [timesOf_eval]; simp, by simp⟩,
    (claim_C10 [1, 1, 1] 2 1 (by simp) (by norm_num) (by norm_num)).1,
    (claim_C10 [1, 1, 1] 2 1 (by simp) (by norm_num) (by norm_num)).2 1
      (by rw [timesOf_eval]; simp) (by simp)⟩

end RiskLabAI
